import Mathlib

/-!
Verification of the JobSeekAI ingestion/analytics core (`scraper.py`,
`app/utils.py`) against its natural-language specification.

The Python code is shallowly embedded: pandas Series/DataFrame columns become
`List`s, `NaN`/missing cells become `Option`, Python `str.lower`/`str.strip`
become character-list maps, and the scraper's stateful dedup loop becomes a
structurally recursive function threading the key set explicitly.
-/

namespace JobSeekAI

/-! ## Python string primitives -/

/-- The characters Python's default `str.strip()` removes (`str.isspace` for
the ASCII range used by this data). -/
def isPySpace (c : Char) : Bool :=
  c = ' ' || c = '\t' || c = '\n' || c = '\r' || c = '\x0b' || c = '\x0c'

/-- `str.strip()` on a character list: drop whitespace from both ends. -/
def stripChars (l : List Char) : List Char :=
  ((l.dropWhile isPySpace).reverse.dropWhile isPySpace).reverse

/-- `str.lower()` on a character list (ASCII case folding, `Char.toLower`). -/
def lowerChars (l : List Char) : List Char :=
  l.map Char.toLower

/-- `str.strip()` at the `String` level. -/
def pyStrip (s : String) : String :=
  String.mk (stripChars s.data)

/-- `str.lower()` at the `String` level. -/
def pyLower (s : String) : String :=
  String.mk (lowerChars s.data)

/-! ## Deduplicator (`scraper.py`, `main`, lines 261–272)

A parsed candidate keeps only the fields the dedup key reads. -/

structure ParsedJob where
  job_title : String
  company : String
deriving DecidableEq, Repr

/-- The composite identity key built in `main`:
`f"{parsed['job_title']}|{parsed['company']}".lower().strip()`. -/
def recKey (r : ParsedJob) : String :=
  String.mk (stripChars (lowerChars (r.job_title.data ++ '|' :: r.company.data)))

/-- The processing loop of `main` (lines 263–272): walk the batch in order,
skip a candidate whose key is already in the key set, otherwise accept it and
add its key to the set. -/
def dedupGo (existing_keys : List String) : List ParsedJob → List ParsedJob
  | [] => []
  | c :: cs =>
    if recKey c ∈ existing_keys then dedupGo existing_keys cs
    else c :: dedupGo (recKey c :: existing_keys) cs

/-- Modelled from the spec's wording of §4.2 (for the refinement comparison
with `dedupGo`): the key is `lowercase(title) + "|" + lowercase(company)`. -/
def specKey (r : ParsedJob) : String :=
  String.mk (lowerChars r.job_title.data ++ '|' :: lowerChars r.company.data)

/-- Modelled from the spec's wording of §4.2 (for the refinement comparison
with `dedupGo`): a candidate is accepted iff its key is neither in
`existing_keys` nor equal to the key of an earlier accepted candidate of the
same batch; `acc` carries the earlier accepted candidates. -/
def specDedupGo (existing_keys : List String) (acc : List ParsedJob) :
    List ParsedJob → List ParsedJob
  | [] => []
  | c :: cs =>
    if specKey c ∈ existing_keys ∨ ∃ d ∈ acc, specKey d = specKey c then
      specDedupGo existing_keys acc cs
    else c :: specDedupGo existing_keys (acc ++ [c]) cs

/-- Spec-side dedup pass starting with no earlier accepted candidate. -/
def specDedup (existing_keys : List String) (batch : List ParsedJob) :
    List ParsedJob :=
  specDedupGo existing_keys [] batch

/-! ## Filter/Query layer (`app/utils.py`, `apply_filters`, lines 185–199) -/

structure Row where
  job_title : String
  industry : String
  location : String
deriving DecidableEq, Repr

/-- `apply_filters`: each non-empty selection list narrows the frame with an
`isin` membership test; a falsy (empty) list leaves that dimension alone. -/
def apply_filters (df : List Row) (industries job_titles locations : List String) :
    List Row :=
  let f1 := if industries ≠ [] then
    df.filter (fun r => decide (r.industry ∈ industries)) else df
  let f2 := if job_titles ≠ [] then
    f1.filter (fun r => decide (r.job_title ∈ job_titles)) else f1
  let f3 := if locations ≠ [] then
    f2.filter (fun r => decide (r.location ∈ locations)) else f2
  f3

/-! ## Salary cleaning (`app/utils.py`, `_clean_dataframe`, lines 91–115)

A row keeps the fields this step reads: the title (for the final drop of
empty/`"nan"` titles) and the two salary bounds, already passed through
`pd.to_numeric(..., errors="coerce")` so a non-numeric cell is `none`. -/

structure SalaryRow where
  job_title : String
  salary_min : Option Int
  salary_max : Option Int
deriving DecidableEq, Repr

/-- The swap-on-violation mask of `_clean_dataframe` (lines 99–107): when both
bounds are present and `salary_min > salary_max`, the two cells are swapped;
any other row is untouched. -/
def fixSalary (r : SalaryRow) : SalaryRow :=
  match r.salary_min, r.salary_max with
  | some a, some b =>
    if b < a then { r with salary_min := some b, salary_max := some a } else r
  | _, _ => r

/-- The text normalisation of lines 109–112 restricted to the fields kept in
`SalaryRow`: `job_title` is stripped. -/
def stripTitle (r : SalaryRow) : SalaryRow :=
  { r with job_title := pyStrip r.job_title }

/-- Row filter of line 114: drop rows whose (stripped) title is `""` or
`"nan"`. -/
def titleKept (r : SalaryRow) : Bool :=
  !(r.job_title = "" || r.job_title = "nan")

/-- `_clean_dataframe` restricted to the fields of `SalaryRow`: swap violating
salary pairs, strip titles, drop empty/`"nan"` titles. -/
def cleanRows (df : List SalaryRow) : List SalaryRow :=
  ((df.map fixSalary).map stripTitle).filter titleKept

/-! ## Company week-over-week trend (`app/utils.py`, `get_company_intel`,
lines 669–693)

Dates are modelled as integer timestamps; a `none` date is a `NaT` produced by
`pd.to_datetime(..., errors="coerce")`, which every comparison rejects. -/

/-- `recent_count` (line 681): postings with `date >= now - 7d` — no upper
bound. -/
def recentCount (dates : List (Option Int)) (now : Int) : Nat :=
  (dates.filter (fun d => match d with
    | some t => decide (now - 7 ≤ t)
    | none => false)).length

/-- `prev_count` (line 682): postings with `now - 14d <= date < now - 7d`. -/
def prevCount (dates : List (Option Int)) (now : Int) : Nat :=
  (dates.filter (fun d => match d with
    | some t => decide (now - 14 ≤ t ∧ t < now - 7)
    | none => false)).length

/-- The `if`/`elif` chain of lines 684–693 classifying the trend, with
`trend_delta` initialised to `0`. -/
def companyTrend (recent prior : Nat) : String × Nat :=
  if prior = 0 ∧ 0 < recent then ("up", recent)
  else if prior = 0 ∧ recent = 0 then ("unknown", 0)
  else if prior < recent then ("up", recent - prior)
  else if recent < prior then ("down", prior - recent)
  else ("stable", 0)

/-- The trend block of `get_company_intel` as a whole: count the two windows,
then classify. -/
def companyTrendFromDates (dates : List (Option Int)) (now : Int) : String × Nat :=
  companyTrend (recentCount dates now) (prevCount dates now)

/-- Modelled from the claim's wording (for the C4 counterexample): the number
of postings dated in the half-open window `[lo, hi)`. -/
def countInWindow (dates : List (Option Int)) (lo hi : Int) : Nat :=
  (dates.filter (fun d => match d with
    | some t => decide (lo ≤ t ∧ t < hi)
    | none => false)).length

/-! ## Degree extraction (`app/utils.py`, lines 524–565)

`DEGREE_PATTERNS` is copied verbatim (regex source text and label); the Python
`re.search` call is abstracted as a matcher argument `m : pattern → text →
Bool`, since the claims about this code depend only on the ordered
first-match-wins traversal, not on the regex engine itself. -/

def DEGREE_PATTERNS : List (String × String) := [
  ("\\bphd\\b|\\bdoctor(?:ate)?\\b",                      "PhD / Doctorate"),
  ("\\bmba\\b",                                           "MBA"),
  ("\\bm\\.?sc\\b|\\bmasters?\\b|\\bm\\.?s\\b",           "MSc / Masters"),
  ("\\bm\\.?a\\b(?!nagement)",                            "MA"),
  ("\\bb\\.?sc\\b|\\bb\\.?s\\b",                          "BSc / BS"),
  ("\\bb\\.?ba\\b",                                       "BBA"),
  ("\\bb\\.?a\\b(?!nk)",                                  "BA"),
  ("\\bb\\.?eng\\b|\\bb\\.?tech\\b",                      "B.Eng / B.Tech"),
  ("\\bllb\\b|\\blaw\\b",                                 "LLB / Law"),
  ("\\bmbbs\\b|\\bmd\\b(?!\\s+degree)",                   "MBBS / MD"),
  ("\\bdiploma\\b",                                       "Diploma"),
  ("\\bhsc\\b|\\bintermediate\\b|\\ba[\\s-]?levels?\\b",  "HSC / A-Level"),
  ("\\bssc\\b|\\bo[\\s-]?levels?\\b|\\bmatric(?:ulation)?\\b", "SSC / O-Level")]

/-- The inner loop of `extract_degrees`: lowercase the text, try the patterns
in authored order, return the first matching label, else the sentinel. -/
def extractDegree (m : String → String → Bool) (text : String) : String :=
  match DEGREE_PATTERNS.find? (fun pl => m pl.1 (pyLower text)) with
  | some pl => pl.2
  | none => "Not Specified"

/-- `extract_degrees` over a column; `series.fillna("")` sends a missing cell
to `""`. -/
def extract_degrees (m : String → String → Bool)
    (series : List (Option String)) : List String :=
  series.map (fun o => extractDegree m (o.getD ""))

/-- `pd.Series.value_counts` as an association list: each distinct value with
its number of occurrences.  pandas additionally sorts by descending count;
the claims settled here depend only on the multiset of (value, count) pairs,
so the order is left as first-grouping order. -/
def valueCounts (xs : List String) : List (String × Nat) :=
  xs.dedup.map (fun v => (v, xs.count v))

/-- `get_degree_counts` (lines 554–565): drop the sentinel, count the rest. -/
def get_degree_counts (m : String → String → Bool)
    (series : List (Option String)) : List (String × Nat) :=
  valueCounts ((extract_degrees m series).filter (fun d => d != "Not Specified"))

/-! ## Industry classifier (`scraper.py`, lines 56–120) -/

/-- The keyword table, in the authored (dict-insertion) order of
`INDUSTRY_KEYWORDS`. -/
def INDUSTRY_KEYWORDS : List (String × List String) := [
  ("IT/Telecommunication", [
    "software", "developer", "programmer", "IT ", "flutter", "react",
    "python", "java", "frontend", "backend", "full stack", "fullstack",
    "devops", "data engineer", "data scien", "machine learning", "AI ",
    "cloud", "network", "system admin", "cyber", "web ", "app ",
    "mern", "node", "database", "telecom"]),
  ("Bank/Financial", [
    "bank", "banking", "loan", "credit", "finance", "treasury",
    "investment", "insurance", "microfinance", "accounts", "accounting",
    "audit", "tax", "vat", "cashier"]),
  ("Engineering", [
    "engineer", "civil", "mechanical", "electrical", "architect",
    "construction", "structural", "surveyor", "autocad", "project eng",
    "site eng", "design eng"]),
  ("Marketing/Sales", [
    "marketing", "sales", "brand", "digital market", "seo",
    "social media", "content", "advertising", "promotion",
    "business develop", "bdm", "area manager", "regional manager",
    "territory", "merchandis"]),
  ("NGO/Development", [
    "ngo", "development", "humanitarian", "relief", "undp",
    "unicef", "project officer", "field officer", "coordinator",
    "community", "volunteer", "social"]),
  ("Healthcare/Medical", [
    "medical", "doctor", "nurse", "hospital", "pharma", "health",
    "diagnostic", "lab ", "laboratory", "patholog", "radiolog",
    "technologist"]),
  ("Education/Training", [
    "teacher", "lecturer", "professor", "trainer", "instructor",
    "education", "school", "university", "academic", "tutor",
    "training"]),
  ("Garments/Textile", [
    "garment", "textile", "knitting", "dyeing", "washing",
    "sewing", "fabric", "apparel", "sweater", "fashion",
    "merchandiser"]),
  ("HR/Admin", [
    "hr ", "human resource", "admin", "receptionist", "front desk",
    "office manage", "executive assist", "personal assist"]),
  ("Accounting/Finance", [
    "accountant", "accounts officer", "bookkeep", "payroll",
    "financial analyst"])]

/-- Python's substring operator `needle in haystack` on character lists. -/
def containsSub : List Char → List Char → Bool
  | [], nee => nee.isEmpty
  | c :: t, nee => nee.isPrefixOf (c :: t) || containsSub t nee

/-- `detect_industry` (lines 111–120): lowercase the space-joined fields,
return the first industry (in authored order) one of whose lowercased
keywords occurs as a substring, else the fallback label. -/
def detect_industry (job_title education company : String) : String :=
  let text := pyLower (job_title ++ " " ++ education ++ " " ++ company)
  match INDUSTRY_KEYWORDS.find? (fun ik =>
      ik.2.any (fun kw => containsSub text.data (pyLower kw).data)) with
  | some ik => ik.1
  | none => "General/Other"

/-! ## Skill tokens (`app/utils.py`, `clean_skills`, lines 123–132) -/

/-- Python `str.split(",")` on a character list; the empty string splits to
one empty fragment. -/
def splitComma : List Char → List (List Char)
  | [] => [[]]
  | c :: t =>
    if c = ',' then [] :: splitComma t
    else
      match splitComma t with
      | h :: r => (c :: h) :: r
      | [] => [[c]]

/-- The body of the `clean_skills` loop for one entry: `entry_str` is the
stripped entry; an entry lowering to `""`/`"nan"` is skipped; otherwise split
on commas and keep each fragment's stripped lowercased form when the stripped
fragment is non-empty. -/
def cleanEntry (entry : String) : List String :=
  if pyLower (pyStrip entry) = "" ∨ pyLower (pyStrip entry) = "nan" then []
  else ((splitComma (pyStrip entry).data).filter (fun s => stripChars s != [])).map
    (fun s => String.mk (lowerChars (stripChars s)))

/-- `clean_skills`: iterate the non-null entries of the series
(`series.dropna()`) in order and concatenate each entry's tokens. -/
def clean_skills (series : List (Option String)) : List String :=
  (series.filterMap id).flatMap cleanEntry

/-! ## Experience extraction (`app/utils.py`, lines 568–602)

`_EXP_REGEX = (\d+)\s*(?:\-\s*\d+)?\s*\+?\s*year` with `re.IGNORECASE`,
searched with leftmost-match semantics and returning the first captured
digit group. -/

/-- Maximal run of leading decimal digits and the remainder. -/
def takeDigits : List Char → List Char × List Char
  | [] => ([], [])
  | c :: t =>
    if c.isDigit then
      match takeDigits t with
      | (d, r) => (c :: d, r)
    else ([], c :: t)

/-- Numeric value of a digit run. -/
def digitsToNat (ds : List Char) : Nat :=
  ds.foldl (fun a c => a * 10 + (c.toNat - 48)) 0

/-- `\s*`: drop maximal leading whitespace. -/
def skipSpaces (l : List Char) : List Char :=
  l.dropWhile isPySpace

/-- The literal `year` (case-insensitive) at the head of the remainder. -/
def yearPrefix : List Char → Bool
  | y :: e :: a :: r :: _ =>
    y.toLower == 'y' && e.toLower == 'e' && a.toLower == 'a' && r.toLower == 'r'
  | _ => false

/-- One attempt of `_EXP_REGEX` anchored at the head of `cs`, returning the
first captured group.  The whitespace stars are maximal and the optional
range group `(?:\-\s*\d+)?` is consumed exactly when `-` is followed (after
whitespace) by digits; when the group is skipped the following atoms can
never match the leading `-`, so this deterministic reading coincides with
the regex's backtracking semantics for this pattern. -/
def expMatchAt (cs : List Char) : Option Nat :=
  match takeDigits cs with
  | ([], _) => none
  | (ds, r0) =>
    let r1 := skipSpaces r0
    let r2 :=
      match r1 with
      | '-' :: t =>
        match takeDigits (skipSpaces t) with
        | ([], _) => r1
        | (_, t2) => t2
      | _ => r1
    let r3 := skipSpaces r2
    let r4 :=
      match r3 with
      | '+' :: t => t
      | _ => r3
    if yearPrefix (skipSpaces r4) then some (digitsToNat ds) else none

/-- `re.search`: try every start position left to right. -/
def expSearch : List Char → Option Nat
  | [] => none
  | c :: t =>
    match expMatchAt (c :: t) with
    | some n => some n
    | none => expSearch t

/-- `_extract_exp_years`: the regex group is a digit run, so the `float` in
the source is integer-valued and modelled as `Nat`. -/
def extractExpYears (text : String) : Option Nat :=
  expSearch text.data

/-- `bucket_experience` (lines 576–583). -/
def bucketExperience : Option Nat → String
  | none => "Not Specified"
  | some y =>
    if y ≤ 2 then "Entry Level (0–2 yrs)"
    else if y ≤ 5 then "Mid Level (3–5 yrs)"
    else "Senior Level (6+ yrs)"

/-- The fixed reindex labels of `get_experience_level_counts`. -/
def expLabels : List String :=
  ["Entry Level (0–2 yrs)", "Mid Level (3–5 yrs)", "Senior Level (6+ yrs)"]

/-- `get_experience_level_counts` (lines 586–602): bucket each row, drop the
sentinel, `value_counts`, then `reindex(expLabels, fill_value=0)` — an
association-list lookup per label defaulting to `0`. -/
def get_experience_level_counts (skills : List String) : List (String × Nat) :=
  let kept := (skills.map (fun t => bucketExperience (extractExpYears t))).filter
    (fun b => b != "Not Specified")
  expLabels.map (fun lab => (lab, ((valueCounts kept).lookup lab).getD 0))

/-! ## Helper lemmas about stripping and the dedup loop -/

theorem dropWhile_eq_self_of_strip {l : List Char} (h : stripChars l = l) :
    l.dropWhile isPySpace = l := by
  apply (List.dropWhile_sublist (p := isPySpace) (l := l)).eq_of_length
  have l1 := (List.dropWhile_sublist (p := isPySpace) (l := l)).length_le
  have l2 := (List.dropWhile_sublist (p := isPySpace)
    (l := (l.dropWhile isPySpace).reverse)).length_le
  have h3 : (stripChars l).length = l.length := by rw [h]
  simp only [stripChars, List.length_reverse] at h3 l2
  omega

theorem reverse_dropWhile_eq_self_of_strip {l : List Char} (h : stripChars l = l) :
    l.reverse.dropWhile isPySpace = l.reverse := by
  have hd := dropWhile_eq_self_of_strip h
  have h2 : (l.reverse.dropWhile isPySpace).reverse = l := by
    simpa [stripChars, hd] using h
  have := congrArg List.reverse h2
  simpa using this

theorem head_not_space_of_dropWhile_eq {a : Char} {t : List Char}
    (h : (a :: t).dropWhile isPySpace = a :: t) : isPySpace a = false := by
  cases ha : isPySpace a with
  | false => rfl
  | true =>
    rw [List.dropWhile_cons, if_pos ha] at h
    have := (List.dropWhile_sublist (p := isPySpace) (l := t)).length_le
    have := congrArg List.length h
    simp at this
    omega

theorem dropWhile_append_eq_self {A B : List Char} {x : Char}
    (hA : A.dropWhile isPySpace = A) (hx : isPySpace x = false) :
    (A ++ x :: B).dropWhile isPySpace = A ++ x :: B := by
  cases A with
  | nil => simp [List.dropWhile_cons, hx]
  | cons a t =>
    have ha := head_not_space_of_dropWhile_eq hA
    simp [List.dropWhile_cons, ha]

theorem stripChars_append_bar {A B : List Char}
    (hA : stripChars A = A) (hB : stripChars B = B) :
    stripChars (A ++ '|' :: B) = A ++ '|' :: B := by
  have h1 : (A ++ '|' :: B).dropWhile isPySpace = A ++ '|' :: B :=
    dropWhile_append_eq_self (dropWhile_eq_self_of_strip hA) (by decide)
  have h2 : (A ++ '|' :: B).reverse.dropWhile isPySpace = (A ++ '|' :: B).reverse := by
    have hshape : (A ++ '|' :: B).reverse = B.reverse ++ '|' :: A.reverse := by
      simp
    rw [hshape]
    exact dropWhile_append_eq_self (reverse_dropWhile_eq_self_of_strip hB) (by decide)
  unfold stripChars
  rw [h1, h2, List.reverse_reverse]

theorem recKey_eq_specKey {r : ParsedJob}
    (ht : stripChars (lowerChars r.job_title.data) = lowerChars r.job_title.data)
    (hc : stripChars (lowerChars r.company.data) = lowerChars r.company.data) :
    recKey r = specKey r := by
  unfold recKey specKey
  have hmap : lowerChars (r.job_title.data ++ '|' :: r.company.data)
      = lowerChars r.job_title.data ++ '|' :: lowerChars r.company.data := by
    simp [lowerChars]
  rw [hmap, stripChars_append_bar ht hc]

theorem dedupGo_congrKeys : ∀ (b : List ParsedJob) (K K' : List String),
    (∀ s, s ∈ K ↔ s ∈ K') → dedupGo K b = dedupGo K' b
  | [], _, _, _ => rfl
  | c :: cs, K, K', h => by
    unfold dedupGo
    by_cases hc : recKey c ∈ K
    · rw [if_pos hc, if_pos ((h _).mp hc)]
      exact dedupGo_congrKeys cs K K' h
    · rw [if_neg hc, if_neg (fun hx => hc ((h _).mpr hx))]
      rw [dedupGo_congrKeys cs (recKey c :: K) (recKey c :: K') (by
        intro s; simp [h s])]

theorem specDedupGo_eq_dedupGo :
    ∀ (b : List ParsedJob) (K : List String) (acc : List ParsedJob),
    (∀ r ∈ b, recKey r = specKey r) → (∀ r ∈ acc, recKey r = specKey r) →
    specDedupGo K acc b = dedupGo (acc.map recKey ++ K) b
  | [], _, _, _, _ => rfl
  | c :: cs, K, acc, hb, hacc => by
    have hck : recKey c = specKey c := hb c (by simp)
    have hcond : (specKey c ∈ K ∨ ∃ d ∈ acc, specKey d = specKey c) ↔
        recKey c ∈ acc.map recKey ++ K := by
      rw [List.mem_append, List.mem_map, hck]
      constructor
      · rintro (h | ⟨d, hd, he⟩)
        · exact Or.inr h
        · exact Or.inl ⟨d, hd, (hacc d hd).trans he⟩
      · rintro (⟨d, hd, he⟩ | h)
        · exact Or.inr ⟨d, hd, (hacc d hd).symm.trans he⟩
        · exact Or.inl h
    unfold specDedupGo dedupGo
    by_cases hc : specKey c ∈ K ∨ ∃ d ∈ acc, specKey d = specKey c
    · rw [if_pos hc, if_pos (hcond.mp hc)]
      exact specDedupGo_eq_dedupGo cs K acc (fun r hr => hb r (by simp [hr])) hacc
    · rw [if_neg hc, if_neg (fun hx => hc (hcond.mpr hx))]
      rw [specDedupGo_eq_dedupGo cs K (acc ++ [c])
        (fun r hr => hb r (by simp [hr]))
        (by intro r hr
            rcases List.mem_append.mp hr with h | h
            · exact hacc r h
            · simp at h; subst h; exact hck)]
      refine congrArg _ (dedupGo_congrKeys cs _ _ ?_)
      intro s
      simp only [List.map_append, List.map_cons, List.map_nil, List.mem_append,
        List.mem_cons, List.mem_singleton, List.not_mem_nil, or_false]
      tauto

theorem dedupGo_rerun_nil : ∀ (b : List ParsedJob) (K : List String),
    dedupGo ((dedupGo K b).map recKey ++ K) b = []
  | [], _ => rfl
  | c :: cs, K => by
    by_cases hc : recKey c ∈ K
    · have h1 : dedupGo K (c :: cs) = dedupGo K cs := by
        conv_lhs => unfold dedupGo
        rw [if_pos hc]
      rw [h1]
      have h2 : recKey c ∈ (dedupGo K cs).map recKey ++ K :=
        List.mem_append.mpr (Or.inr hc)
      conv_lhs => unfold dedupGo
      rw [if_pos h2]
      exact dedupGo_rerun_nil cs K
    · have h1 : dedupGo K (c :: cs) = c :: dedupGo (recKey c :: K) cs := by
        conv_lhs => unfold dedupGo
        rw [if_neg hc]
      rw [h1]
      conv_lhs => unfold dedupGo
      rw [if_pos (by simp)]
      have ih := dedupGo_rerun_nil cs (recKey c :: K)
      rw [← ih]
      apply dedupGo_congrKeys
      intro s
      simp only [List.map_cons, List.mem_cons, List.mem_append]
      tauto

/-! ## Claim theorems -/

/-- C1: the dedup pass of `scraper.main` accepts a parsed candidate iff its
composite key `lowercase(title) + "|" + lowercase(company)` is neither in
`existing_keys` nor equal to the key of an earlier accepted candidate of the
same batch (`specDedup` states exactly that, carrying the earlier accepted
candidates explicitly), and the key is case-insensitive, so
`("Data Analyst", "Acme")` and `("data analyst", "ACME")` collide.  The
hypothesis says the (lowercased) fields carry no leading/trailing whitespace,
which holds for every candidate `parse_job` emits since it strips both fields;
determinism across runs is by construction: `dedupGo` is a pure function of
the batch and `existing_keys`. -/
theorem C1_dedup_accepts_iff (K : List String) (b : List ParsedJob)
    (hb : ∀ r ∈ b,
      stripChars (lowerChars r.job_title.data) = lowerChars r.job_title.data ∧
      stripChars (lowerChars r.company.data) = lowerChars r.company.data) :
    dedupGo K b = specDedup K b ∧
    recKey ⟨"Data Analyst", "Acme"⟩ = recKey ⟨"data analyst", "ACME"⟩ := by
  constructor
  · have hkeys : ∀ r ∈ b, recKey r = specKey r := fun r hr =>
      recKey_eq_specKey (hb r hr).1 (hb r hr).2
    rw [specDedup, specDedupGo_eq_dedupGo b K [] hkeys (by simp)]
    rfl
  · decide

/-- Witness for C1 at a concrete batch and key set. -/
theorem C1_dedup_accepts_iff_witness :
    dedupGo ["data analyst|acme"] [⟨"Data Analyst", "Acme"⟩, ⟨"Dev", "X"⟩]
      = specDedup ["data analyst|acme"] [⟨"Data Analyst", "Acme"⟩, ⟨"Dev", "X"⟩] :=
  (C1_dedup_accepts_iff ["data analyst|acme"]
    [⟨"Data Analyst", "Acme"⟩, ⟨"Dev", "X"⟩] (by decide)).1

/-- C2: `apply_filters` treats an empty selection list on a dimension as no
constraint and a non-empty list as an exact membership test; the result is the
intersection of the three per-dimension predicates, and with all three
selections empty the corpus is returned unchanged. -/
theorem C2_apply_filters_semantics (df : List Row)
    (industries job_titles locations : List String) :
    (∀ r, r ∈ apply_filters df industries job_titles locations ↔
        r ∈ df ∧ (industries = [] ∨ r.industry ∈ industries)
             ∧ (job_titles = [] ∨ r.job_title ∈ job_titles)
             ∧ (locations = [] ∨ r.location ∈ locations))
    ∧ apply_filters df [] [] [] = df := by
  constructor
  · intro r
    unfold apply_filters
    by_cases h1 : industries = [] <;> by_cases h2 : job_titles = [] <;>
      by_cases h3 : locations = [] <;>
      simp [h1, h2, h3, List.mem_filter] <;> tauto
  · simp [apply_filters]

/-- C3: after `_clean_dataframe`, every surviving row with both salary bounds
present satisfies `salary_min ≤ salary_max`; a violating pair is corrected by
swapping the two cells (the corrected pair is the original pair, possibly
transposed), rows with either bound absent keep both salary fields unchanged,
and a row is never dropped because of its salary values — only the title
filter removes rows. -/
theorem C3_salary_swap_invariant (df : List SalaryRow) (r : SalaryRow) (a b : Int) :
    (r ∈ cleanRows df → r.salary_min = some a → r.salary_max = some b → a ≤ b)
    ∧ (r.salary_min = some a → r.salary_max = some b →
        ((fixSalary r).salary_min = some a ∧ (fixSalary r).salary_max = some b) ∨
        ((fixSalary r).salary_min = some b ∧ (fixSalary r).salary_max = some a))
    ∧ (r.salary_min = none ∨ r.salary_max = none → fixSalary r = r)
    ∧ (r ∈ df → titleKept (stripTitle (fixSalary r)) = true →
        stripTitle (fixSalary r) ∈ cleanRows df) := by
  refine ⟨?_, ?_, ?_, ?_⟩
  · intro hr hmin hmax
    simp only [cleanRows, List.mem_filter, List.mem_map] at hr
    obtain ⟨⟨y, ⟨x, hx, rfl⟩, rfl⟩, hkept⟩ := hr
    have hmin' : (fixSalary x).salary_min = some a := hmin
    have hmax' : (fixSalary x).salary_max = some b := hmax
    rcases hxa : x.salary_min with _ | xa <;> rcases hxb : x.salary_max with _ | xb
    · simp [fixSalary, hxa, hxb] at hmin'
    · simp [fixSalary, hxa, hxb] at hmin'
    · simp [fixSalary, hxa, hxb] at hmax'
    · by_cases hlt : xb < xa <;>
        simp [fixSalary, hxa, hxb, hlt] at hmin' hmax' <;> omega
  · intro hmin hmax
    simp only [fixSalary, hmin, hmax]
    by_cases hlt : b < a
    · right; simp [if_pos hlt]
    · left; simp [if_neg hlt, hmin, hmax]
  · intro hnone
    rcases hnone with h | h <;> simp [fixSalary, h]
  · intro hr hkept
    simp only [cleanRows, List.mem_filter, List.mem_map]
    exact ⟨⟨fixSalary r, ⟨r, hr, rfl⟩, rfl⟩, hkept⟩

/-- Witness for C3 at a violating row, an absent-bound row, and a kept row. -/
theorem C3_salary_swap_invariant_witness :
    ((⟨"Dev", some 4, some 9⟩ : SalaryRow) ∈
        cleanRows [⟨"Dev", some 9, some 4⟩] → (4 : Int) ≤ 9)
    ∧ (((fixSalary ⟨"Dev", some 9, some 4⟩).salary_min = some 9 ∧
        (fixSalary ⟨"Dev", some 9, some 4⟩).salary_max = some 4) ∨
       ((fixSalary ⟨"Dev", some 9, some 4⟩).salary_min = some 4 ∧
        (fixSalary ⟨"Dev", some 9, some 4⟩).salary_max = some 9))
    ∧ fixSalary ⟨"QA", none, some 7⟩ = ⟨"QA", none, some 7⟩
    ∧ stripTitle (fixSalary ⟨"Dev", some 9, some 4⟩) ∈
        cleanRows [⟨"Dev", some 9, some 4⟩] :=
  ⟨fun h => (C3_salary_swap_invariant [⟨"Dev", some 9, some 4⟩]
      ⟨"Dev", some 4, some 9⟩ 4 9).1 h rfl rfl,
   (C3_salary_swap_invariant [] ⟨"Dev", some 9, some 4⟩ 9 4).2.1 rfl rfl,
   (C3_salary_swap_invariant [] ⟨"QA", none, some 7⟩ 0 7).2.2.1 (Or.inl rfl),
   (C3_salary_swap_invariant [⟨"Dev", some 9, some 4⟩]
      ⟨"Dev", some 9, some 4⟩ 0 0).2.2.2 (by simp) (by decide)⟩

/-- C4 counterexample: the claim computes `recent` over the half-open window
`[now-7d, now)`, but the code (`get_company_intel`, line 681) counts every
posting with `date >= now-7d`, with no upper bound.  A single posting dated
one day after `now` gives claim-side counts `recent = prior = 0`, whose case
analysis says "unknown", while the code reports `("up", 1)`. -/
theorem C4_trend_counterexample :
    companyTrendFromDates [some 101] 100 = ("up", 1)
    ∧ countInWindow [some 101] (100 - 7) 100 = 0
    ∧ countInWindow [some 101] (100 - 14) (100 - 7) = 0
    ∧ companyTrend 0 0 = ("unknown", 0)
    ∧ companyTrendFromDates [some 101] 100 ≠
        companyTrend (countInWindow [some 101] (100 - 7) 100)
          (countInWindow [some 101] (100 - 14) (100 - 7)) := by
  refine ⟨by decide, by decide, by decide, by decide, by decide⟩

/-- C4 (amended): with `recent` the number of postings dated at or after
`now - 7d` (no upper bound, as the code counts it) and `prior` the number
dated in `[now-14d, now-7d)`, `get_company_intel` classifies the trend by
exactly the claimed case analysis: `prior = 0 < recent → ("up", recent)`;
`prior = recent = 0 → ("unknown", 0)`; `recent > prior → ("up", recent-prior)`;
`recent < prior → ("down", prior-recent)`; `recent = prior > 0 →
("stable", 0)`. -/
theorem C4_trend_classification (recent prior : Nat)
    (dates : List (Option Int)) (now : Int) :
    (prior = 0 → 0 < recent → companyTrend recent prior = ("up", recent))
    ∧ (companyTrend 0 0 = ("unknown", 0))
    ∧ (prior < recent → companyTrend recent prior = ("up", recent - prior))
    ∧ (recent < prior → companyTrend recent prior = ("down", prior - recent))
    ∧ (recent = prior → 0 < prior → companyTrend recent prior = ("stable", 0))
    ∧ companyTrendFromDates dates now =
        companyTrend (recentCount dates now) (prevCount dates now) := by
  refine ⟨?_, by decide, ?_, ?_, ?_, rfl⟩
  · intro h1 h2
    subst h1
    unfold companyTrend
    rw [if_pos ⟨rfl, h2⟩]
  · intro h
    unfold companyTrend
    by_cases hp : prior = 0
    · subst hp
      rw [if_pos ⟨rfl, h⟩]
      simp
    · rw [if_neg (by omega), if_neg (by omega), if_pos h]
  · intro h
    unfold companyTrend
    rw [if_neg (by omega), if_neg (by omega), if_neg (by omega), if_pos h]
  · intro h1 h2
    unfold companyTrend
    rw [if_neg (by omega), if_neg (by omega), if_neg (by omega), if_neg (by omega)]

/-- Witness for C4 at the spec's own worked examples plus strict up/down
pairs. -/
theorem C4_trend_classification_witness :
    companyTrend 5 0 = ("up", 5) ∧ companyTrend 5 5 = ("stable", 0)
    ∧ companyTrend 0 0 = ("unknown", 0) ∧ companyTrend 7 3 = ("up", 4)
    ∧ companyTrend 2 6 = ("down", 4) :=
  ⟨(C4_trend_classification 5 0 [] 0).1 rfl (by decide),
   (C4_trend_classification 5 5 [] 0).2.2.2.2.1 rfl (by decide),
   (C4_trend_classification 0 0 [] 0).2.1,
   (C4_trend_classification 7 3 [] 0).2.2.1 (by decide),
   (C4_trend_classification 2 6 [] 0).2.2.2.1 (by decide)⟩

theorem valueCounts_sum (xs : List String) :
    ((valueCounts xs).map Prod.snd).sum = xs.length := by
  simpa [valueCounts, List.map_map, Function.comp] using
    List.sum_map_count_dedup_eq_length xs

theorem degree_labels_ne_sentinel :
    ∀ pl ∈ DEGREE_PATTERNS, pl.2 ≠ "Not Specified" := by decide

theorem extractDegree_matches_iff (m : String → String → Bool) (t : String) :
    DEGREE_PATTERNS.any (fun pl => m pl.1 (pyLower t)) = true ↔
    extractDegree m t ≠ "Not Specified" := by
  unfold extractDegree
  cases hf : DEGREE_PATTERNS.find? (fun pl => m pl.1 (pyLower t)) with
  | none =>
    rw [List.find?_eq_none] at hf
    simp only [List.any_eq_true]
    constructor
    · rintro ⟨pl, hmem, hm⟩
      exact absurd hm (by simpa using hf pl hmem)
    · intro h
      exact absurd rfl h
  | some pl =>
    simp only [List.any_eq_true]
    constructor
    · intro _
      exact degree_labels_ne_sentinel pl (List.mem_of_find?_eq_some hf)
    · intro _
      have hp : (fun pl => m pl.1 (pyLower t)) pl = true :=
        List.find?_some (p := fun pl : String × String => m pl.1 (pyLower t)) hf
      exact ⟨pl, List.mem_of_find?_eq_some hf, by simpa using hp⟩

theorem containsSub_iff_infix (hay nee : List Char) :
    containsSub hay nee = true ↔ nee <:+: hay := by
  induction hay with
  | nil => simp [containsSub, List.isEmpty_iff]
  | cons c t ih =>
    simp only [containsSub, Bool.or_eq_true, List.isPrefixOf_iff_prefix, ih]
    exact List.infix_cons_iff.symm

theorem industry_labels_ne_fallback :
    ∀ ik ∈ INDUSTRY_KEYWORDS, ik.1 ≠ "General/Other" := by decide

theorem detect_industry_eq (job_title education company : String) :
    detect_industry job_title education company =
      match INDUSTRY_KEYWORDS.find? (fun ik =>
          ik.2.any (fun kw => containsSub
            (pyLower (job_title ++ " " ++ education ++ " " ++ company)).data
            (pyLower kw).data)) with
      | some ik => ik.1
      | none => "General/Other" := rfl

/-- C5: the degree extractor tries `DEGREE_PATTERNS` in its authored priority
order — doctorate before masters-level before bachelor-level before diploma
before secondary-level — and returns the label of the first matching pattern;
unmatched text yields the `"Not Specified"` sentinel; and the degree
frequency table excludes the sentinel, so the sum of its counts equals the
number of rows whose skills text matches some degree pattern.  Quantified
over the regex matcher `m`, which stands for Python's `re.search`. -/
theorem C5_degree_extraction (m : String → String → Bool)
    (series : List (Option String)) (text : String) :
    (extractDegree m text = "Not Specified" ↔
        ∀ pl ∈ DEGREE_PATTERNS, m pl.1 (pyLower text) = false)
    ∧ (∀ pre pl suf, DEGREE_PATTERNS = pre ++ pl :: suf →
        m pl.1 (pyLower text) = true →
        (∀ q ∈ pre, m q.1 (pyLower text) = false) →
        extractDegree m text = pl.2)
    ∧ ((get_degree_counts m series).map Prod.snd).sum =
        series.countP (fun o =>
          DEGREE_PATTERNS.any (fun pl => m pl.1 (pyLower (o.getD ""))))
    ∧ ((DEGREE_PATTERNS.map Prod.snd).indexOf "PhD / Doctorate" <
        (DEGREE_PATTERNS.map Prod.snd).indexOf "MSc / Masters"
      ∧ (DEGREE_PATTERNS.map Prod.snd).indexOf "MSc / Masters" <
        (DEGREE_PATTERNS.map Prod.snd).indexOf "BSc / BS"
      ∧ (DEGREE_PATTERNS.map Prod.snd).indexOf "BSc / BS" <
        (DEGREE_PATTERNS.map Prod.snd).indexOf "Diploma"
      ∧ (DEGREE_PATTERNS.map Prod.snd).indexOf "Diploma" <
        (DEGREE_PATTERNS.map Prod.snd).indexOf "HSC / A-Level") := by
  refine ⟨?_, ?_, ?_, by decide⟩
  · unfold extractDegree
    cases hf : DEGREE_PATTERNS.find? (fun pl => m pl.1 (pyLower text)) with
    | none =>
      rw [List.find?_eq_none] at hf
      constructor
      · intro _ pl hmem
        simpa using hf pl hmem
      · intro _
        rfl
    | some pl =>
      constructor
      · intro hlbl
        exact absurd hlbl (degree_labels_ne_sentinel pl (List.mem_of_find?_eq_some hf))
      · intro hall
        have := List.find?_some hf
        rw [hall pl (List.mem_of_find?_eq_some hf)] at this
        cases this
  · intro pre pl suf heq hm hpre
    unfold extractDegree
    rw [heq, List.find?_append]
    have h1 : pre.find? (fun q => m q.1 (pyLower text)) = none :=
      List.find?_eq_none.mpr (fun q hq => by simp [hpre q hq])
    have h2 : List.find? (fun q => m q.1 (pyLower text)) (pl :: suf) = some pl :=
      List.find?_cons_of_pos (p := fun q => m q.1 (pyLower text)) (a := pl) suf hm
    rw [h1, h2]
    rfl
  · unfold get_degree_counts extract_degrees
    rw [valueCounts_sum, ← List.countP_eq_length_filter, List.countP_map]
    apply List.countP_congr
    intro o _
    simp only [Function.comp, bne_iff_ne, ne_eq, decide_eq_true_eq]
    exact ⟨fun h => (extractDegree_matches_iff m (o.getD "")).mpr (by simpa using h),
           fun h => by simpa using (extractDegree_matches_iff m (o.getD "")).mp (by simpa using h)⟩

/-- Witness for C5: a matcher that recognises only the `mba` pattern sends
the text `"MBA"` to the label of the second pattern, with the first pattern
(and only it) tried before. -/
theorem C5_degree_extraction_witness :
    extractDegree (fun p t => p == "\\bmba\\b" && t == "mba") "MBA" = "MBA" :=
  (C5_degree_extraction (fun p t => p == "\\bmba\\b" && t == "mba") [] "MBA").2.1
    [("\\bphd\\b|\\bdoctor(?:ate)?\\b", "PhD / Doctorate")]
    ("\\bmba\\b", "MBA")
    [("\\bm\\.?sc\\b|\\bmasters?\\b|\\bm\\.?s\\b",           "MSc / Masters"),
     ("\\bm\\.?a\\b(?!nagement)",                            "MA"),
     ("\\bb\\.?sc\\b|\\bb\\.?s\\b",                          "BSc / BS"),
     ("\\bb\\.?ba\\b",                                       "BBA"),
     ("\\bb\\.?a\\b(?!nk)",                                  "BA"),
     ("\\bb\\.?eng\\b|\\bb\\.?tech\\b",                      "B.Eng / B.Tech"),
     ("\\bllb\\b|\\blaw\\b",                                 "LLB / Law"),
     ("\\bmbbs\\b|\\bmd\\b(?!\\s+degree)",                   "MBBS / MD"),
     ("\\bdiploma\\b",                                       "Diploma"),
     ("\\bhsc\\b|\\bintermediate\\b|\\ba[\\s-]?levels?\\b",  "HSC / A-Level"),
     ("\\bssc\\b|\\bo[\\s-]?levels?\\b|\\bmatric(?:ulation)?\\b", "SSC / O-Level")]
    rfl (by decide) (by decide)

/-- C8: `detect_industry` lowercases the space-joined title, education and
company, returns the label of the first industry in the authored order of
`INDUSTRY_KEYWORDS` with some keyword occurring as a substring, and falls
back to `"General/Other"` when no keyword of any industry matches;
`containsSub` is exactly substring occurrence (`List.IsInfix`), and the
result depends only on the three strings, the fetch category never entering
the definition. -/
theorem C8_industry_classifier (job_title education company : String) :
    (detect_industry job_title education company = "General/Other" ↔
      ∀ ik ∈ INDUSTRY_KEYWORDS, ∀ kw ∈ ik.2,
        containsSub (pyLower (job_title ++ " " ++ education ++ " " ++ company)).data
          (pyLower kw).data = false)
    ∧ (∀ pre ik suf, INDUSTRY_KEYWORDS = pre ++ ik :: suf →
        (∃ kw ∈ ik.2, containsSub
            (pyLower (job_title ++ " " ++ education ++ " " ++ company)).data
            (pyLower kw).data = true) →
        (∀ jk ∈ pre, ∀ kw ∈ jk.2, containsSub
            (pyLower (job_title ++ " " ++ education ++ " " ++ company)).data
            (pyLower kw).data = false) →
        detect_industry job_title education company = ik.1)
    ∧ (∀ hay nee : List Char, containsSub hay nee = true ↔ nee <:+: hay)
    ∧ "General/Other" ∉ INDUSTRY_KEYWORDS.map Prod.fst := by
  refine ⟨?_, ?_, containsSub_iff_infix, by decide⟩
  · rw [detect_industry_eq]
    cases hf : INDUSTRY_KEYWORDS.find? (fun ik =>
        ik.2.any (fun kw => containsSub
          (pyLower (job_title ++ " " ++ education ++ " " ++ company)).data
          (pyLower kw).data)) with
    | none =>
      rw [List.find?_eq_none] at hf
      constructor
      · intro _ ik hik kw hkw
        cases hx : containsSub
            (pyLower (job_title ++ " " ++ education ++ " " ++ company)).data
            (pyLower kw).data with
        | false => rfl
        | true => exact absurd (List.any_eq_true.mpr ⟨kw, hkw, hx⟩) (hf ik hik)
      · intro _
        rfl
    | some ik =>
      constructor
      · intro hlbl
        exact absurd hlbl (industry_labels_ne_fallback ik (List.mem_of_find?_eq_some hf))
      · intro hall
        have hp := List.find?_some hf
        rw [List.any_eq_true] at hp
        obtain ⟨kw, hkw, hx⟩ := hp
        rw [hall ik (List.mem_of_find?_eq_some hf) kw hkw] at hx
        cases hx
  · intro pre ik suf heq hex hpre
    rw [detect_industry_eq, heq, List.find?_append]
    have h1 : pre.find? (fun jk => jk.2.any (fun kw => containsSub
        (pyLower (job_title ++ " " ++ education ++ " " ++ company)).data
        (pyLower kw).data)) = none := by
      refine List.find?_eq_none.mpr (fun jk hjk => ?_)
      simp only [List.any_eq_true, not_exists, not_and]
      intro kw hkw hx
      rw [hpre jk hjk kw hkw] at hx
      cases hx
    have h2 : ik.2.any (fun kw => containsSub
        (pyLower (job_title ++ " " ++ education ++ " " ++ company)).data
        (pyLower kw).data) = true := by
      rw [List.any_eq_true]
      exact hex
    have h3 : List.find? (fun jk => jk.2.any (fun kw => containsSub
        (pyLower (job_title ++ " " ++ education ++ " " ++ company)).data
        (pyLower kw).data)) (ik :: suf) = some ik :=
      List.find?_cons_of_pos (p := fun jk => jk.2.any (fun kw => containsSub
        (pyLower (job_title ++ " " ++ education ++ " " ++ company)).data
        (pyLower kw).data)) (a := ik) suf h2
    rw [h1, h3]
    rfl

/-- Witness for C8: `"Software Engineer"` at `"Acme"` is classified as the
first industry via its `"software"` keyword. -/
theorem C8_industry_classifier_witness :
    detect_industry "Software Engineer" "" "Acme" = "IT/Telecommunication" :=
  (C8_industry_classifier "Software Engineer" "" "Acme").2.1 []
    ("IT/Telecommunication", [
      "software", "developer", "programmer", "IT ", "flutter", "react",
      "python", "java", "frontend", "backend", "full stack", "fullstack",
      "devops", "data engineer", "data scien", "machine learning", "AI ",
      "cloud", "network", "system admin", "cyber", "web ", "app ",
      "mern", "node", "database", "telecom"])
    (INDUSTRY_KEYWORDS.drop 1)
    rfl ⟨"software", by decide, by decide⟩ (by intro jk hjk; cases hjk)

/-- C9: deduplication is idempotent: two runs on the same batch against the
same `existing_keys` give the same accepted list (the pass is a pure
function), and a second run whose `existing_keys` is augmented with the keys
of the first run's accepted output accepts zero records. -/
theorem C9_dedup_idempotence (K : List String) (b : List ParsedJob) :
    dedupGo K b = dedupGo K b
    ∧ dedupGo ((dedupGo K b).map recKey ++ K) b = [] :=
  ⟨rfl, dedupGo_rerun_nil b K⟩

theorem lookup_map_pair (f : String → Nat) (lab : String) :
    ∀ l : List String,
      (l.map (fun v => (v, f v))).lookup lab = if lab ∈ l then some (f lab) else none
  | [] => rfl
  | v :: t => by
    rw [List.map_cons]
    by_cases hv : lab = v
    · subst hv
      simp [List.lookup]
    · have hb : (lab == v) = false := beq_eq_false_iff_ne.mpr hv
      simp only [List.lookup, hb, lookup_map_pair f lab t, List.mem_cons]
      simp [hv]

theorem lookup_valueCounts (xs : List String) (lab : String) :
    ((valueCounts xs).lookup lab).getD 0 = xs.count lab := by
  unfold valueCounts
  rw [lookup_map_pair]
  by_cases h : lab ∈ xs.dedup
  · simp [h]
  · have h0 : xs.count lab = 0 := by
      rw [List.count_eq_zero]
      exact fun hx => h (List.mem_dedup.mpr hx)
    simp [h, h0]

theorem mem_cleanEntry (e tok : String) :
    tok ∈ cleanEntry e ↔
      ¬(pyLower (pyStrip e) = "" ∨ pyLower (pyStrip e) = "nan") ∧
      ∃ s ∈ splitComma (pyStrip e).data, stripChars s ≠ [] ∧
        tok = String.mk (lowerChars (stripChars s)) := by
  unfold cleanEntry
  by_cases hc : pyLower (pyStrip e) = "" ∨ pyLower (pyStrip e) = "nan"
  · simp [hc]
  · rw [if_neg hc]
    simp only [List.mem_map, List.mem_filter]
    constructor
    · rintro ⟨s, ⟨hs1, hs2⟩, rfl⟩
      exact ⟨hc, s, hs1, by simpa using hs2, rfl⟩
    · rintro ⟨_, s, hs1, hs2, rfl⟩
      exact ⟨s, ⟨hs1, by simpa using hs2⟩, rfl⟩

/-- C7 counterexample: the claim's tokenisation (split on comma, slash,
pipe, semicolon, newline; keep only stop-word-free tokens of length 2–40)
does not describe `clean_skills`, the tokeniser feeding `skill_frequency`:
on the entry `"a, python/sql"` the code keeps the length-1 token `"a"` and
keeps `"python/sql"` as a single unsplit token.  (The claimed behaviour
exists only in `_extract_market_skills` of `app/ai_summary.py`, which serves
the excluded AI skill-gap feature, not the skill-frequency ranking.) -/
theorem C7_skill_tokens_counterexample :
    clean_skills [some "a, python/sql"] = ["a", "python/sql"]
    ∧ "a" ∈ clean_skills [some "a, python/sql"]
    ∧ String.length "a" < 2
    ∧ "python/sql" ∈ clean_skills [some "a, python/sql"] := by
  refine ⟨by decide, by decide, by decide, by decide⟩

/-- C7 (amended): the skill-token vocabulary used for skill-frequency
ranking (`clean_skills`) is obtained by splitting each non-null, non-`"nan"`
entry of the skills column on commas only, trimming and lowercasing each
fragment, and keeping exactly the fragments that are non-empty after
trimming — with no length bounds and no stop-word list. -/
theorem C7_clean_skills_tokens (series : List (Option String)) (tok : String) :
    tok ∈ clean_skills series ↔
      ∃ e : String, some e ∈ series ∧
        ¬(pyLower (pyStrip e) = "" ∨ pyLower (pyStrip e) = "nan") ∧
        ∃ s ∈ splitComma (pyStrip e).data, stripChars s ≠ [] ∧
          tok = String.mk (lowerChars (stripChars s)) := by
  unfold clean_skills
  rw [List.mem_flatMap]
  constructor
  · rintro ⟨e, he, htok⟩
    rw [List.mem_filterMap] at he
    obtain ⟨o, ho, hoe⟩ := he
    obtain ⟨h1, h2⟩ := (mem_cleanEntry e tok).mp htok
    exact ⟨e, by rwa [show o = some e from hoe] at ho, h1, h2⟩
  · rintro ⟨e, he, h1, h2⟩
    exact ⟨e, List.mem_filterMap.mpr ⟨some e, he, rfl⟩,
      (mem_cleanEntry e tok).mpr ⟨h1, h2⟩⟩

theorem get_experience_level_counts_eq (skills : List String) :
    get_experience_level_counts skills = expLabels.map (fun lab =>
      (lab, ((skills.map (fun t => bucketExperience (extractExpYears t))).filter
        (fun b => b != "Not Specified")).count lab)) := by
  unfold get_experience_level_counts
  simp only []
  apply List.map_congr_left
  intro lab _
  rw [lookup_valueCounts]

/-- C10: for every skills column — including an empty one — the experience
frequency table has exactly the three level rows, in the fixed order Entry,
Mid, Senior, each carrying the occurrence count of that level (hence `0` for
a level absent from the data); levels are never omitted. -/
theorem C10_experience_table_shape (skills : List String) :
    (get_experience_level_counts skills).map Prod.fst = expLabels
    ∧ get_experience_level_counts skills = expLabels.map (fun lab =>
        (lab, ((skills.map (fun t => bucketExperience (extractExpYears t))).filter
          (fun b => b != "Not Specified")).count lab))
    ∧ get_experience_level_counts [] =
        [("Entry Level (0–2 yrs)", 0), ("Mid Level (3–5 yrs)", 0),
         ("Senior Level (6+ yrs)", 0)] := by
  refine ⟨?_, get_experience_level_counts_eq skills, by decide⟩
  simp [get_experience_level_counts, List.map_map, Function.comp_def, List.map_id']

theorem expSearch_eq_some_iff : ∀ (cs : List Char) (n : Nat),
    expSearch cs = some n ↔
      ∃ i, expMatchAt (cs.drop i) = some n ∧
        ∀ j, j < i → expMatchAt (cs.drop j) = none
  | [], n => by
    constructor
    · intro h
      cases h
    · rintro ⟨i, hi, _⟩
      rw [List.drop_nil] at hi
      cases hi
  | c :: t, n => by
    constructor
    · intro h
      unfold expSearch at h
      cases hm : expMatchAt (c :: t) with
      | some k =>
        rw [hm] at h
        refine ⟨0, ?_, fun j hj => absurd hj (Nat.not_lt_zero j)⟩
        rw [List.drop_zero, hm]
        exact h
      | none =>
        rw [hm] at h
        obtain ⟨i, hi, hj⟩ := (expSearch_eq_some_iff t n).mp h
        refine ⟨i + 1, by simpa using hi, ?_⟩
        intro j hjlt
        cases j with
        | zero => simpa using hm
        | succ j2 => simpa using hj j2 (by omega)
    · rintro ⟨i, hi, hj⟩
      unfold expSearch
      cases hm : expMatchAt (c :: t) with
      | some k =>
        cases i with
        | zero =>
          rw [List.drop_zero, hm] at hi
          exact hi
        | succ i2 =>
          have h0 := hj 0 (Nat.succ_pos i2)
          rw [List.drop_zero, hm] at h0
          cases h0
      | none =>
        cases i with
        | zero =>
          rw [List.drop_zero, hm] at hi
          cases hi
        | succ i2 =>
          refine (expSearch_eq_some_iff t n).mpr ⟨i2, by simpa using hi, ?_⟩
          intro j hjlt
          simpa using hj (j + 1) (by omega)

theorem bucketExperience_sentinel_iff (o : Option Nat) :
    bucketExperience o = "Not Specified" ↔ o = none := by
  cases o with
  | none => simp [bucketExperience]
  | some y =>
    simp only [bucketExperience]
    constructor
    · intro h
      exfalso
      by_cases h2 : y ≤ 2
      · rw [if_pos h2] at h
        exact absurd h (by decide)
      · by_cases h5 : y ≤ 5
        · rw [if_neg h2, if_pos h5] at h
          exact absurd h (by decide)
        · rw [if_neg h2, if_neg h5] at h
          exact absurd h (by decide)
    · intro h
      exact absurd h (Option.some_ne_none y)

theorem bucketExperience_mem (o : Option Nat) :
    bucketExperience o = "Not Specified" ∨ bucketExperience o ∈ expLabels := by
  cases o with
  | none => exact Or.inl rfl
  | some y =>
    right
    simp only [bucketExperience, expLabels]
    split_ifs <;> simp

theorem sum_indicator_one (y : String) : ∀ labels : List String, labels.Nodup →
    y ∈ labels → (labels.map (fun lab => if y == lab then 1 else 0)).sum = 1
  | [], _, hmem => absurd hmem (List.not_mem_nil y)
  | lab :: rest, hnd, hmem => by
    by_cases he : lab = y
    · subst he
      have h0 : (rest.map (fun l2 => if lab == l2 then 1 else 0)).sum = 0 := by
        apply List.sum_eq_zero
        intro x hx
        rw [List.mem_map] at hx
        obtain ⟨l2, hl2, rfl⟩ := hx
        have hne : lab ≠ l2 := by
          intro h
          subst h
          exact (List.nodup_cons.mp hnd).1 hl2
        simp [hne]
      simp only [List.map_cons, List.sum_cons, beq_self_eq_true, if_pos]
      simpa using h0
    · have hmem2 : y ∈ rest := by
        rcases List.mem_cons.mp hmem with h | h
        · exact absurd h.symm he
        · exact h
      have ih := sum_indicator_one y rest (List.nodup_cons.mp hnd).2 hmem2
      have hne : y ≠ lab := fun h => he h.symm
      simp only [List.map_cons, List.sum_cons]
      simp [hne]
      simpa using ih

theorem sum_counts_of_all_mem : ∀ (ys labels : List String), labels.Nodup →
    (∀ y ∈ ys, y ∈ labels) →
    (labels.map (fun lab => ys.count lab)).sum = ys.length
  | [], labels, _, _ => by simp
  | y :: t, labels, hnd, hall => by
    have ih := sum_counts_of_all_mem t labels hnd
      (fun z hz => hall z (List.mem_cons_of_mem y hz))
    have hy := hall y (List.mem_cons_self y t)
    calc (labels.map (fun lab => (y :: t).count lab)).sum
        = (labels.map (fun lab => t.count lab + if y == lab then 1 else 0)).sum := by
          apply congrArg
          exact List.map_congr_left (fun lab _ => List.count_cons lab y t)
      _ = (labels.map (fun lab => t.count lab)).sum
          + (labels.map (fun lab => if y == lab then 1 else 0)).sum := by
          rw [← List.sum_map_add]
      _ = t.length + 1 := by rw [ih, sum_indicator_one y labels hnd hy]
      _ = (y :: t).length := rfl

/-- C6: the experience extractor returns the digit run of the leftmost
position where `_EXP_REGEX` matches (so the first integer preceding the
literal `year`, and the lower bound of an `N-M years` range, since the
captured group is the leading digits of the match); the returned years are
bucketed `0–2 → Entry`, `3–5 → Mid`, `6+ → Senior`; text with no extractable
number yields `"Not Specified"`, which the experience frequency table
excludes, so its counts sum to the number of rows with an extractable
number. -/
theorem C6_experience_extraction (text : String) (n : Nat) (skills : List String) :
    (extractExpYears text = some n ↔
      ∃ i, expMatchAt (text.data.drop i) = some n ∧
        ∀ j, j < i → expMatchAt (text.data.drop j) = none)
    ∧ bucketExperience none = "Not Specified"
    ∧ (∀ k : Nat, k ≤ 2 → bucketExperience (some k) = "Entry Level (0–2 yrs)")
    ∧ (∀ k : Nat, 3 ≤ k → k ≤ 5 → bucketExperience (some k) = "Mid Level (3–5 yrs)")
    ∧ (∀ k : Nat, 6 ≤ k → bucketExperience (some k) = "Senior Level (6+ yrs)")
    ∧ ((get_experience_level_counts skills).map Prod.snd).sum =
        skills.countP (fun t => (extractExpYears t).isSome) := by
  refine ⟨expSearch_eq_some_iff text.data n, rfl, ?_, ?_, ?_, ?_⟩
  · intro k hk
    simp only [bucketExperience]
    rw [if_pos hk]
  · intro k h3 h5
    simp only [bucketExperience]
    rw [if_neg (by omega), if_pos h5]
  · intro k h6
    simp only [bucketExperience]
    rw [if_neg (by omega), if_neg (by omega)]
  · rw [get_experience_level_counts_eq, List.map_map]
    have hmem : ∀ y ∈ (skills.map (fun t => bucketExperience (extractExpYears t))).filter
        (fun b => b != "Not Specified"), y ∈ expLabels := by
      intro y hy
      rw [List.mem_filter] at hy
      obtain ⟨hy1, hy2⟩ := hy
      rw [List.mem_map] at hy1
      obtain ⟨t, ht, rfl⟩ := hy1
      rcases bucketExperience_mem (extractExpYears t) with h | h
      · rw [h] at hy2
        simp at hy2
      · exact h
    have hsum := sum_counts_of_all_mem _ expLabels (by decide) hmem
    have hcomp : (Prod.snd ∘ fun lab => (lab,
        ((skills.map (fun t => bucketExperience (extractExpYears t))).filter
          (fun b => b != "Not Specified")).count lab)) = fun lab =>
        ((skills.map (fun t => bucketExperience (extractExpYears t))).filter
          (fun b => b != "Not Specified")).count lab := rfl
    rw [hcomp, hsum, ← List.countP_eq_length_filter, List.countP_map]
    apply List.countP_congr
    intro t _
    simp only [Function.comp]
    constructor
    · intro hbne
      rw [bne_iff_ne, ne_eq, bucketExperience_sentinel_iff] at hbne
      cases ho : extractExpYears t with
      | none => exact absurd ho hbne
      | some k => rfl
    · intro hsome
      rw [bne_iff_ne, ne_eq, bucketExperience_sentinel_iff]
      intro hnone
      rw [hnone] at hsome
      cases hsome

/-- Witness for C6 at `"3-5 years"` (range lower bound) and one value per
bucket. -/
theorem C6_experience_extraction_witness :
    extractExpYears "3-5 years" = some 3
    ∧ bucketExperience (some 2) = "Entry Level (0–2 yrs)"
    ∧ bucketExperience (some 4) = "Mid Level (3–5 yrs)"
    ∧ bucketExperience (some 7) = "Senior Level (6+ yrs)" :=
  ⟨(C6_experience_extraction "3-5 years" 3 []).1.mpr
      ⟨0, by decide, fun j hj => absurd hj (Nat.not_lt_zero j)⟩,
   (C6_experience_extraction "" 0 []).2.2.1 2 (by decide),
   (C6_experience_extraction "" 0 []).2.2.2.1 4 (by decide) (by decide),
   (C6_experience_extraction "" 0 []).2.2.2.2.1 7 (by decide)⟩

end JobSeekAI
